import Mathlib

/-!
Shallow embedding of `annotatable_properties/managers.py`.

The module defines `AnnotatableQuerySet` with two operations:

* `sort(key, reverse)`: normalizes the key (a callable, an attribute name
  string, or a tuple of attribute names) with `operator.attrgetter`,
  materializes the queryset, sorts it in memory with Python's stable
  `sorted`, and (when non-empty) re-expresses the order as a SQL
  `CASE WHEN id = pk THEN rank ... END` extra-select column named
  `"sort_order"`, ordering by it.
* `annotate_property(annotation, property_name)`: resolves the output name
  (string annotations default to `<attr>_property`; a callable with no name
  raises `ValueError`), materializes the queryset, applies the annotation to
  every record, and exposes the per-pk values as a SQL CASE extra-select
  column.

Embedding choices:

* Attribute values and annotated values are modeled as `Int` (Python `repr`
  of an int round-trips through the SQL literal exactly as `toString` of an
  `Int` does).  A callable key returns a `List Int` (a singleton models a
  scalar key, longer lists model tuples; Python compares tuples
  lexicographically).
* A record is a pk together with an attribute association list; a missing
  attribute makes `attrgetter` raise `AttributeError`, modeled with
  `Except`.  `operator.attrgetter()` applied to zero names (an empty tuple
  key) raises `TypeError` at construction time.
* A queryset is its base row list, its extra-select columns (each stored as
  the structured branch list of the synthesized CASE expression, rendered
  textually by `caseSql`), and the current `order_by` field.  Materializing
  evaluates the CASE per row (first matching pk, `NULL` i.e. `none` when no
  branch matches) and stably sorts by it when an `order_by` is set.
* Python dicts (`pk_mapping`) are association lists built by `dictOfList`:
  insertion keeps the first position of a key and overwrites its value.
* Python's stable `sorted` is modeled by `List.insertionSort` on
  key-decorated pairs (any stable sort is extensionally the same);
  `reverse=True` is the stable descending sort, i.e. sorting by the flipped
  comparator.
-/

/-- Python-level errors raised by the two operations. -/
inductive Err where
  | typeError
  | valueError
  | attributeError
deriving DecidableEq

/-- A persisted record: a primary key and named integer attributes. -/
structure Record where
  pk : Nat
  attrs : List (String × Int)
deriving DecidableEq

/-- Association-list lookup, first match wins (also models the per-row
evaluation of a `CASE WHEN key = k THEN v ...` expression). -/
def dlookup {κ β : Type} [DecidableEq κ] (k : κ) : List (κ × β) → Option β
  | [] => none
  | p :: t => if p.1 = k then some p.2 else dlookup k t

/-- Python dict insertion: an existing key keeps its position and gets the
new value, a new key is appended. -/
def dictInsert {κ β : Type} [DecidableEq κ] (m : List (κ × β)) (k : κ) (v : β) :
    List (κ × β) :=
  match m with
  | [] => [(k, v)]
  | p :: t => if p.1 = k then (k, v) :: t else p :: dictInsert t k v

/-- A Python dict built from a sequence of key/value pairs in order. -/
def dictOfList {κ β : Type} [DecidableEq κ] (ps : List (κ × β)) : List (κ × β) :=
  ps.foldl (fun m p => dictInsert m p.1 p.2) []

/-- Lexicographic `≤` on equal-shape integer lists: Python's comparison of
the tuples produced by `attrgetter` with several names (and of single
values, as singletons). -/
def lexLeB : List Int → List Int → Bool
  | [], _ => true
  | _ :: _, [] => false
  | a :: as, b :: bs => if a < b then true else if b < a then false else lexLeB as bs

/-- Comparator used by the in-memory sort on key-decorated records;
`reverse=True` is the stable descending sort. -/
def pairLe : Bool → (List Int × Record) → (List Int × Record) → Prop
  | false, x, y => lexLeB x.1 y.1 = true
  | true, x, y => lexLeB y.1 x.1 = true

instance : (rev : Bool) → DecidableRel (pairLe rev)
  | false, x, y => inferInstanceAs (Decidable (lexLeB x.1 y.1 = true))
  | true, x, y => inferInstanceAs (Decidable (lexLeB y.1 x.1 = true))

/-- SQL `ORDER BY` comparison on per-row CASE values; a row matching no
branch yields `NULL`, which sorts last. -/
def nullsLastLeB : Option Int → Option Int → Bool
  | _, none => true
  | none, some _ => false
  | some a, some b => a ≤ b

/-- Evaluate a CASE branch list at a row's pk. -/
def evalCase (br : List (Nat × Int)) (pk : Nat) : Option Int :=
  dlookup pk br

/-- Row comparison induced by ordering on an extra-select CASE column. -/
def rowLe (br : List (Nat × Int)) (x y : Record) : Prop :=
  nullsLastLeB (evalCase br x.pk) (evalCase br y.pk) = true

instance (br : List (Nat × Int)) : DecidableRel (rowLe br) :=
  fun x y =>
    inferInstanceAs (Decidable (nullsLastLeB (evalCase br x.pk) (evalCase br y.pk) = true))

/-- `(pk, order)` pairs from `enumerate(sorted_objects)` starting at `i`. -/
def branchesFrom (i : Int) : List Record → List (Nat × Int)
  | [] => []
  | r :: t => (r.pk, i) :: branchesFrom (i + 1) t

/-- The textual rendering of the synthesized conditional expression,
`f"CASE {' '.join(...)} END"`; an int's Python `repr` is its decimal
string, as is `toString` of an `Int`. -/
def caseSql (br : List (Nat × Int)) : String :=
  "CASE " ++ String.intercalate " "
    (br.map (fun p => "WHEN id = " ++ toString p.1 ++ " THEN " ++ toString p.2)) ++ " END"

/-- A queryset: base rows, extra-select CASE columns, current ordering. -/
structure QuerySet where
  records : List Record
  extraSelect : List (String × List (Nat × Int))
  orderBy : Option String
deriving DecidableEq

/-- Materialized iteration order: evaluate the ordering column (when one is
set) per row and sort by it. -/
def materialize (qs : QuerySet) : List Record :=
  match qs.orderBy with
  | none => qs.records
  | some f =>
    match dlookup f qs.extraSelect with
    | none => qs.records
    | some br => List.insertionSort (rowLe br) qs.records

/-- Reading a computed field off a materialized row. -/
def readField (qs : QuerySet) (name : String) (r : Record) : Option Int :=
  (dlookup name qs.extraSelect).bind (fun br => evalCase br r.pk)

/-- The `key` argument of `sort`: a callable, an attribute name, or a tuple
of attribute names. -/
inductive Key where
  | call (f : Record → List Int)
  | attr (s : String)
  | attrs (ss : List String)

/-- The `annotation` argument of `annotate_property`: a callable or an
attribute name. -/
inductive AnnSpec where
  | call (f : Record → Int)
  | attr (s : String)

/-- `attrgetter(s1, ..., sn)` applied to a record: each lookup in turn, the
first missing attribute raises `AttributeError`. -/
def attrsExc : List String → Record → Except Err (List Int)
  | [], _ => Except.ok []
  | s :: t, r =>
    match dlookup s r.attrs with
    | some v => (attrsExc t r).map (fun rest => v :: rest)
    | none => Except.error Err.attributeError

/-- The normalized key function applied to one record. -/
def keyExc : Key → Record → Except Err (List Int)
  | Key.call f, r => Except.ok (f r)
  | Key.attr s, r =>
    match dlookup s r.attrs with
    | some v => Except.ok [v]
    | none => Except.error Err.attributeError
  | Key.attrs ss, r => attrsExc ss r

/-- Total version of the normalized key, agreeing with `keyExc` wherever the
latter succeeds. -/
def keyD : Key → Record → List Int
  | Key.call f, r => f r
  | Key.attr s, r => [(dlookup s r.attrs).getD 0]
  | Key.attrs ss, r => ss.map (fun s => (dlookup s r.attrs).getD 0)

/-- Key normalization at call entry: `attrgetter(*())` (an empty tuple key)
raises `TypeError`; every other key becomes a per-record function. -/
def normalizeKey : Key → Except Err (Record → Except Err (List Int))
  | Key.call f => Except.ok (keyExc (Key.call f))
  | Key.attr s => Except.ok (keyExc (Key.attr s))
  | Key.attrs [] => Except.error Err.typeError
  | Key.attrs (s :: t) => Except.ok (keyExc (Key.attrs (s :: t)))

/-- Decorate each record with its key, in iteration order; the first key
failure propagates (as in Python's `sorted(self, key=...)`). -/
def exceptPairs (kf : Record → Except Err (List Int)) :
    List Record → Except Err (List (List Int × Record))
  | [] => Except.ok []
  | r :: t => do
    let v ← kf r
    let rest ← exceptPairs kf t
    Except.ok ((v, r) :: rest)

/-- `AnnotatableQuerySet.sort`. -/
def QuerySet.sort (qs : QuerySet) (key : Key) (reverse : Bool) :
    Except Err QuerySet := do
  let kf ← normalizeKey key
  let decorated ← exceptPairs kf (materialize qs)
  let sortedObjects := (List.insertionSort (pairLe reverse) decorated).map Prod.snd
  if sortedObjects.isEmpty then
    pure qs
  else
    let branches := dictOfList (branchesFrom 0 sortedObjects)
    pure { qs with
      extraSelect := dictInsert qs.extraSelect "sort_order" branches
      orderBy := some "sort_order" }

/-- The annotation applied to one record, `AttributeError` on a missing
attribute. -/
def applyAnnExc : AnnSpec → Record → Except Err Int
  | AnnSpec.call f, r => Except.ok (f r)
  | AnnSpec.attr s, r =>
    match dlookup s r.attrs with
    | some v => Except.ok v
    | none => Except.error Err.attributeError

/-- The annotation as an optional value (what reading the attribute would
yield when it exists). -/
def applyAnnO : AnnSpec → Record → Option Int
  | AnnSpec.call f, r => some (f r)
  | AnnSpec.attr s, r => dlookup s r.attrs

/-- The `{obj.pk: annotation(obj) for obj in self}` pair sequence. -/
def annPairs (a : AnnSpec) : List Record → Except Err (List (Nat × Int))
  | [] => Except.ok []
  | r :: t => do
    let v ← applyAnnExc a r
    let rest ← annPairs a t
    Except.ok ((r.pk, v) :: rest)

/-- `AnnotatableQuerySet.annotate_property`. -/
def QuerySet.annotate_property (qs : QuerySet) (ann : AnnSpec)
    (property_name : Option String) : Except Err QuerySet := do
  let name ← match property_name, ann with
    | some n, _ => pure n
    | none, AnnSpec.attr s => pure (s ++ "_property")
    | none, AnnSpec.call _ => Except.error Err.valueError
  let pairs ← annPairs ann (materialize qs)
  let branches := dictOfList pairs
  pure { qs with extraSelect := dictInsert qs.extraSelect name branches }

/-- `AnnotatableManager`: holds the full default collection of its model. -/
structure Manager where
  allRecords : List Record

/-- `AnnotatableManager.get_queryset`: a fresh queryset over all records. -/
def Manager.get_queryset (m : Manager) : QuerySet :=
  { records := m.allRecords, extraSelect := [], orderBy := none }

/-- `AnnotatableManager.sort`: forwards to the queryset operation. -/
def Manager.sort (m : Manager) (key : Key) (reverse : Bool) :
    Except Err QuerySet :=
  m.get_queryset.sort key reverse

/-- `AnnotatableManager.annotate_property`: forwards to the queryset
operation. -/
def Manager.annotate_property (m : Manager) (ann : AnnSpec)
    (property_name : Option String) : Except Err QuerySet :=
  m.get_queryset.annotate_property ann property_name

/-- The in-memory stable sort of a record list by a (total) normalized key,
honoring the reverse flag: Python's `sorted(l, key=k, reverse=rev)`. -/
def pythonStableSort (k : Record → List Int) (rev : Bool) (l : List Record) :
    List Record :=
  (List.insertionSort (pairLe rev) (l.map (fun r => (k r, r)))).map Prod.snd

/-! ### Dictionary and materialization lemmas -/

theorem dlookup_dictInsert_self {κ β : Type} [DecidableEq κ]
    (m : List (κ × β)) (k : κ) (v : β) :
    dlookup k (dictInsert m k v) = some v := by
  induction m with
  | nil => simp [dictInsert, dlookup]
  | cons p t ih =>
    by_cases h : p.1 = k
    · simp [dictInsert, h, dlookup]
    · simp [dictInsert, h, dlookup, ih]

theorem dlookup_dictInsert_ne {κ β : Type} [DecidableEq κ]
    (m : List (κ × β)) (k k' : κ) (v : β) (h : k' ≠ k) :
    dlookup k' (dictInsert m k v) = dlookup k' m := by
  have h' : k ≠ k' := Ne.symm h
  induction m with
  | nil => simp [dictInsert, dlookup, h']
  | cons p t ih =>
    by_cases hp : p.1 = k
    · subst hp
      simp [dictInsert, dlookup, h']
    · simp [dictInsert, dlookup, hp, ih]

theorem dictInsert_eq_append {κ β : Type} [DecidableEq κ]
    (m : List (κ × β)) (k : κ) (v : β) (h : k ∉ m.map Prod.fst) :
    dictInsert m k v = m ++ [(k, v)] := by
  induction m with
  | nil => rfl
  | cons p t ih =>
    simp only [List.map_cons, List.mem_cons] at h
    push_neg at h
    have h1 : ¬p.1 = k := Ne.symm h.1
    simp [dictInsert, h1, ih h.2]

theorem dictOfList_eq_self {κ β : Type} [DecidableEq κ]
    (ps : List (κ × β)) (h : (ps.map Prod.fst).Nodup) :
    dictOfList ps = ps := by
  suffices haux : ∀ ps acc : List (κ × β), ((acc ++ ps).map Prod.fst).Nodup →
      ps.foldl (fun m p => dictInsert m p.1 p.2) acc = acc ++ ps by
    simpa using haux ps [] (by simpa using h)
  intro ps
  induction ps with
  | nil => intro acc _; simp
  | cons p t ih =>
    intro acc hacc
    have hk : p.1 ∉ acc.map Prod.fst := by
      intro hmem
      have hsplit := List.nodup_append.mp (by simpa using hacc)
      exact hsplit.2.2 hmem (by simp)
    have hstep : dictInsert acc p.1 p.2 = acc ++ [p] := dictInsert_eq_append acc p.1 p.2 hk
    have htail : (((acc ++ [p]) ++ t).map Prod.fst).Nodup := by
      simpa using hacc
    calc (p :: t).foldl (fun m q => dictInsert m q.1 q.2) acc
        = t.foldl (fun m q => dictInsert m q.1 q.2) (acc ++ [p]) := by
          simp [List.foldl_cons, hstep]
      _ = (acc ++ [p]) ++ t := ih (acc ++ [p]) htail
      _ = acc ++ p :: t := by simp

theorem dlookup_of_mem_of_nodup {κ β : Type} [DecidableEq κ]
    (ps : List (κ × β)) (k : κ) (v : β) (hnd : (ps.map Prod.fst).Nodup)
    (hmem : (k, v) ∈ ps) : dlookup k ps = some v := by
  induction ps with
  | nil => cases hmem
  | cons p t ih =>
    simp only [List.map_cons, List.nodup_cons] at hnd
    rcases List.mem_cons.mp hmem with h1 | h1
    · simp [← h1, dlookup]
    · have hk : p.1 ≠ k := by
        intro he
        exact hnd.1 (he ▸ List.mem_map.mpr ⟨(k, v), h1, rfl⟩)
      simp only [dlookup, hk, if_false]
      exact ih hnd.2 h1

theorem materialize_records_nil (qs : QuerySet) (h : qs.records = []) :
    materialize qs = [] := by
  cases h1 : qs.orderBy with
  | none => simp [materialize, h1, h]
  | some f =>
    cases h2 : dlookup f qs.extraSelect with
    | none => simp [materialize, h1, h2, h]
    | some br => simp [materialize, h1, h2, h]

theorem materialize_perm (qs : QuerySet) : (materialize qs).Perm qs.records := by
  cases h1 : qs.orderBy with
  | none => simp [materialize, h1]
  | some f =>
    cases h2 : dlookup f qs.extraSelect with
    | none => simp [materialize, h1, h2]
    | some br =>
      simp only [materialize, h1, h2]
      exact List.perm_insertionSort _ _

/-- Shared helper: on an empty collection, `sort` with any key other than
the empty tuple returns the original queryset. -/
theorem sort_empty_ok (qs : QuerySet) (key : Key) (rev : Bool)
    (h : qs.records = []) (hk : key ≠ Key.attrs []) :
    QuerySet.sort qs key rev = Except.ok qs := by
  have hm : materialize qs = [] := materialize_records_nil qs h
  cases key with
  | call f => unfold QuerySet.sort; rw [hm]; rfl
  | attr s => unfold QuerySet.sort; rw [hm]; rfl
  | attrs ss =>
    cases ss with
    | nil => exact absurd rfl hk
    | cons s t => unfold QuerySet.sort; rw [hm]; rfl

/-! ### Except monad reduction lemmas -/

@[simp]
theorem except_bind_ok {ε α β : Type} (a : α) (f : α → Except ε β) :
    (Except.ok a >>= f) = f a := rfl

@[simp]
theorem except_bind_error {ε α β : Type} (e : ε) (f : α → Except ε β) :
    ((Except.error e : Except ε α) >>= f) = Except.error e := rfl

@[simp]
theorem except_pure_eq_ok {ε α : Type} (a : α) : (pure a : Except ε α) = Except.ok a := rfl

/-! ### Error analysis of the annotation path -/

theorem applyAnnExc_error (a : AnnSpec) (r : Record) (e : Err)
    (h : applyAnnExc a r = Except.error e) : e = Err.attributeError := by
  cases a with
  | call f => simp [applyAnnExc] at h
  | attr s =>
    cases h2 : dlookup s r.attrs with
    | some v => simp [applyAnnExc, h2] at h
    | none =>
      simp only [applyAnnExc, h2, Except.error.injEq] at h
      exact h.symm

theorem annPairs_error (a : AnnSpec) (l : List Record) (e : Err)
    (h : annPairs a l = Except.error e) : e = Err.attributeError := by
  induction l with
  | nil => simp [annPairs] at h
  | cons r t ih =>
    rw [annPairs] at h
    cases h1 : applyAnnExc a r with
    | error e' =>
      rw [h1] at h
      simp only [except_bind_error, Except.error.injEq] at h
      exact h ▸ applyAnnExc_error a r e' h1
    | ok v =>
      rw [h1] at h
      simp only [except_bind_ok] at h
      cases h2 : annPairs a t with
      | error e' =>
        rw [h2] at h
        simp only [except_bind_error, Except.error.injEq] at h
        subst h
        exact ih h2
      | ok rest =>
        rw [h2] at h
        simp at h

/-! ### Sample data used by closed witnesses -/

def recA : Record := ⟨1, [("name", 2), ("cost", 10), ("price", 5)]⟩

def recB : Record := ⟨2, [("name", 1), ("cost", 9), ("price", 3)]⟩

def qsNil : QuerySet := ⟨[], [], none⟩

def qsAB : QuerySet := ⟨[recA, recB], [], none⟩

/-! ### Claims C3, C4, C6, C9, C10 -/

/-- C3 (counterexample): the claim quantifies over every key, but on the
empty tuple key `()` the code calls `attrgetter()` which raises `TypeError`,
so `sort` on an empty collection does not return the original collection for
that key. -/
theorem sort_empty_tuple_key_raises :
    QuerySet.sort qsNil (Key.attrs []) false = Except.error Err.typeError ∧
    QuerySet.sort qsNil (Key.attrs []) false ≠ Except.ok qsNil :=
  ⟨rfl, fun h => by simp [QuerySet.sort, normalizeKey] at h⟩

/-- C3 (amended): for every key other than the empty tuple of attribute
names, and both reverse flags, `sort` on an empty collection returns the
original queryset unchanged, raising no error and synthesizing no
conditional expression. -/
theorem sort_empty_collection_noop (qs : QuerySet) (key : Key) (rev : Bool)
    (h : qs.records = []) (hk : key ≠ Key.attrs []) :
    QuerySet.sort qs key rev = Except.ok qs :=
  sort_empty_ok qs key rev h hk

theorem sort_empty_collection_noop_witness :
    qsNil.records = [] ∧ QuerySet.sort qsNil (Key.attr "name") true = Except.ok qsNil :=
  ⟨rfl, sort_empty_collection_noop qsNil (Key.attr "name") true rfl
    (fun hc => Key.noConfusion hc)⟩

/-- C10 (confirmed): for a string key or a (non-empty) tuple key — in
particular one naming attributes no record has — `sort` on an empty
collection returns the original queryset without an attribute-lookup
error: the normalized key is never applied to any record, since there are
no records to decorate before the empty-collection check. -/
theorem sort_empty_missing_attr_ok (qs : QuerySet) (s : String) (ss : List String)
    (rev : Bool) (h : qs.records = []) :
    QuerySet.sort qs (Key.attr s) rev = Except.ok qs ∧
    QuerySet.sort qs (Key.attrs (s :: ss)) rev = Except.ok qs :=
  ⟨sort_empty_ok qs (Key.attr s) rev h (fun hc => Key.noConfusion hc),
   sort_empty_ok qs (Key.attrs (s :: ss)) rev h (fun hc => by simp at hc)⟩

theorem sort_empty_missing_attr_ok_witness :
    qsNil.records = [] ∧
    QuerySet.sort qsNil (Key.attr "ghost") false = Except.ok qsNil ∧
    QuerySet.sort qsNil (Key.attrs ["ghost", "absent"]) false = Except.ok qsNil :=
  ⟨rfl, (sort_empty_missing_attr_ok qsNil "ghost" ["absent"] false rfl).1,
   (sort_empty_missing_attr_ok qsNil "ghost" ["absent"] false rfl).2⟩

/-- C4 (confirmed): `annotate_property` raises `ValueError` exactly when the
annotation is a callable and no output name is given; a string annotation
with no output name behaves as if the name `<attr>_property` had been
passed. -/
theorem annotate_property_config_error_iff :
    (∀ (qs : QuerySet) (a : AnnSpec) (pn : Option String),
      QuerySet.annotate_property qs a pn = Except.error Err.valueError ↔
        pn = none ∧ ∃ f, a = AnnSpec.call f) ∧
    (∀ (qs : QuerySet) (s : String),
      QuerySet.annotate_property qs (AnnSpec.attr s) none =
        QuerySet.annotate_property qs (AnnSpec.attr s) (some (s ++ "_property"))) := by
  constructor
  · intro qs a pn
    constructor
    · intro h
      cases pn with
      | some n =>
        exfalso
        rw [QuerySet.annotate_property] at h
        cases hp : annPairs a (materialize qs) with
        | ok pairs => rw [hp] at h; simp at h
        | error e =>
          rw [hp] at h
          simp only [except_pure_eq_ok, except_bind_ok, except_bind_error,
            Except.error.injEq] at h
          have he := annPairs_error a (materialize qs) e hp
          rw [h] at he
          exact Err.noConfusion he
      | none =>
        cases a with
        | call f => exact ⟨rfl, f, rfl⟩
        | attr s =>
          exfalso
          rw [QuerySet.annotate_property] at h
          cases hp : annPairs (AnnSpec.attr s) (materialize qs) with
          | ok pairs => rw [hp] at h; simp at h
          | error e =>
            rw [hp] at h
            simp only [except_pure_eq_ok, except_bind_ok, except_bind_error,
              Except.error.injEq] at h
            have he := annPairs_error (AnnSpec.attr s) (materialize qs) e hp
            rw [h] at he
            exact Err.noConfusion he
    · rintro ⟨h1, f, h2⟩
      subst h1
      subst h2
      rfl
  · intro qs s
    rfl

theorem annotate_property_config_error_iff_witness :
    QuerySet.annotate_property qsNil (AnnSpec.call (fun r => (r.pk : Int))) none =
      Except.error Err.valueError :=
  (annotate_property_config_error_iff.1 qsNil (AnnSpec.call (fun r => (r.pk : Int)))
    none).mpr ⟨rfl, _, rfl⟩

/-- C6 (confirmed): `annotate_property` on an empty collection has no
empty-collection guard: it succeeds (rather than raising or returning the
collection unchanged) and installs a CASE expression with no branches —
rendered `"CASE  END"`, a malformed SQL fragment that evaluates to no value
on every row. -/
theorem annotate_empty_malformed_case (qs : QuerySet) (a : AnnSpec) (name : String)
    (h : qs.records = []) :
    ∃ qs', QuerySet.annotate_property qs a (some name) = Except.ok qs' ∧
      dlookup name qs'.extraSelect = some [] ∧
      (∀ pk, evalCase [] pk = none) ∧
      caseSql [] = "CASE  END" := by
  have hm : materialize qs = [] := materialize_records_nil qs h
  refine ⟨{ qs with extraSelect := dictInsert qs.extraSelect name [] }, ?_, ?_, ?_, ?_⟩
  · unfold QuerySet.annotate_property
    rw [hm]
    rfl
  · exact dlookup_dictInsert_self qs.extraSelect name []
  · intro pk
    rfl
  · rfl

theorem annotate_empty_malformed_case_witness :
    qsNil.records = [] ∧
    (∃ qs', QuerySet.annotate_property qsNil (AnnSpec.attr "name") (some "x") =
        Except.ok qs' ∧
      dlookup "x" qs'.extraSelect = some [] ∧
      (∀ pk, evalCase [] pk = none) ∧
      caseSql [] = "CASE  END") :=
  ⟨rfl, annotate_empty_malformed_case qsNil (AnnSpec.attr "name") "x" rfl⟩

/-- C9 (confirmed): the manager-level `sort` and `annotate_property` first
build the full default queryset for the model and forward the arguments to
the queryset-level operations unchanged, adding no independent logic. -/
theorem manager_forwards_to_queryset :
    ∀ (m : Manager) (key : Key) (rev : Bool) (a : AnnSpec) (pn : Option String),
      m.get_queryset.records = m.allRecords ∧
      Manager.sort m key rev = QuerySet.sort m.get_queryset key rev ∧
      Manager.annotate_property m a pn =
        QuerySet.annotate_property m.get_queryset a pn :=
  fun _ _ _ _ _ => ⟨rfl, rfl, rfl⟩

/-! ### Order properties of the comparators -/

theorem lexLeB_refl : ∀ l : List Int, lexLeB l l = true := by
  intro l
  induction l with
  | nil => rfl
  | cons a as ih => simp [lexLeB, ih]

theorem lexLeB_total : ∀ l₁ l₂ : List Int, lexLeB l₁ l₂ = true ∨ lexLeB l₂ l₁ = true := by
  intro l₁
  induction l₁ with
  | nil => intro l₂; left; rfl
  | cons a as ih =>
    intro l₂
    cases l₂ with
    | nil => right; rfl
    | cons b bs =>
      rcases lt_trichotomy a b with h | h | h
      · left; simp [lexLeB, h]
      · subst h
        rcases ih bs with h2 | h2
        · left; simp [lexLeB, h2]
        · right; simp [lexLeB, h2]
      · right; simp [lexLeB, h]

theorem lexLeB_cons_iff (a b : Int) (as bs : List Int) :
    (lexLeB (a :: as) (b :: bs) = true) ↔ (a < b ∨ (a = b ∧ lexLeB as bs = true)) := by
  simp only [lexLeB]
  by_cases h1 : a < b
  · simp [h1]
  · by_cases h2 : b < a
    · rw [if_neg h1, if_pos h2]
      constructor
      · intro h; simp at h
      · intro h
        rcases h with h | ⟨h, _⟩ <;> omega
    · have he : a = b := by omega
      rw [if_neg h1, if_neg h2]
      constructor
      · intro h; exact Or.inr ⟨he, h⟩
      · intro h
        rcases h with h | ⟨_, h⟩
        · omega
        · exact h

theorem lexLeB_trans : ∀ l₁ l₂ l₃ : List Int, lexLeB l₁ l₂ = true → lexLeB l₂ l₃ = true →
    lexLeB l₁ l₃ = true := by
  intro l₁
  induction l₁ with
  | nil => intro l₂ l₃ _ _; rfl
  | cons a as ih =>
    intro l₂ l₃ h12 h23
    cases l₂ with
    | nil => simp [lexLeB] at h12
    | cons b bs =>
      cases l₃ with
      | nil => simp [lexLeB] at h23
      | cons c cs =>
        rw [lexLeB_cons_iff] at h12 h23 ⊢
        rcases h12 with h | ⟨h, hr⟩ <;> rcases h23 with h' | ⟨h', hr'⟩
        · left; omega
        · left; omega
        · left; omega
        · exact Or.inr ⟨by omega, ih bs cs hr hr'⟩

theorem lexLeB_antisymm : ∀ l₁ l₂ : List Int, lexLeB l₁ l₂ = true → lexLeB l₂ l₁ = true →
    l₁ = l₂ := by
  intro l₁
  induction l₁ with
  | nil =>
    intro l₂ _ h21
    cases l₂ with
    | nil => rfl
    | cons b bs => simp [lexLeB] at h21
  | cons a as ih =>
    intro l₂ h12 h21
    cases l₂ with
    | nil => simp [lexLeB] at h12
    | cons b bs =>
      rw [lexLeB_cons_iff] at h12 h21
      rcases h12 with h | ⟨h, hr⟩ <;> rcases h21 with h' | ⟨h', hr'⟩
      · exfalso; omega
      · exfalso; omega
      · exfalso; omega
      · rw [h, ih bs hr hr']

/-- Single-record comparison by the normalized key, ascending. -/
def keyLe (k : Record → List Int) (x y : Record) : Prop :=
  lexLeB (k x) (k y) = true

instance (k : Record → List Int) : DecidableRel (keyLe k) :=
  fun x y => inferInstanceAs (Decidable (lexLeB (k x) (k y) = true))

instance (k : Record → List Int) : IsTotal Record (keyLe k) :=
  ⟨fun x y => lexLeB_total (k x) (k y)⟩

instance (k : Record → List Int) : IsTrans Record (keyLe k) :=
  ⟨fun _ _ _ h1 h2 => lexLeB_trans _ _ _ h1 h2⟩

theorem pairLe_total (rev : Bool) : ∀ x y, pairLe rev x y ∨ pairLe rev y x := by
  cases rev
  · exact fun x y => lexLeB_total x.1 y.1
  · exact fun x y => lexLeB_total y.1 x.1

theorem pairLe_trans (rev : Bool) : ∀ x y z, pairLe rev x y → pairLe rev y z →
    pairLe rev x z := by
  cases rev
  · exact fun _ _ _ h1 h2 => lexLeB_trans _ _ _ h1 h2
  · exact fun _ _ _ h1 h2 => lexLeB_trans _ _ _ h2 h1

instance (rev : Bool) : IsTotal (List Int × Record) (pairLe rev) :=
  ⟨pairLe_total rev⟩

instance (rev : Bool) : IsTrans (List Int × Record) (pairLe rev) :=
  ⟨fun x y z => pairLe_trans rev x y z⟩

theorem nullsLastLeB_total : ∀ x y : Option Int,
    nullsLastLeB x y = true ∨ nullsLastLeB y x = true := by
  intro x y
  cases x <;> cases y <;> simp [nullsLastLeB] <;> try omega

theorem nullsLastLeB_trans : ∀ x y z : Option Int, nullsLastLeB x y = true →
    nullsLastLeB y z = true → nullsLastLeB x z = true := by
  intro x y z h1 h2
  cases x <;> cases y <;> cases z <;> simp [nullsLastLeB] at * <;> try omega

instance (br : List (Nat × Int)) : IsTotal Record (rowLe br) :=
  ⟨fun _ _ => nullsLastLeB_total _ _⟩

instance (br : List (Nat × Int)) : IsTrans Record (rowLe br) :=
  ⟨fun _ _ _ h1 h2 => nullsLastLeB_trans _ _ _ h1 h2⟩

/-! ### Success and inversion lemmas for the materialization loops -/

def exceptDecEq {ε α : Type} [DecidableEq ε] [DecidableEq α] :
    DecidableEq (Except ε α) := fun x y =>
  match x, y with
  | Except.ok a, Except.ok b =>
    if h : a = b then isTrue (by rw [h]) else isFalse (fun hc => h (Except.ok.inj hc))
  | Except.error e, Except.error e' =>
    if h : e = e' then isTrue (by rw [h]) else isFalse (fun hc => h (Except.error.inj hc))
  | Except.ok _, Except.error _ => isFalse (fun hc => Except.noConfusion hc)
  | Except.error _, Except.ok _ => isFalse (fun hc => Except.noConfusion hc)

instance {ε α : Type} [DecidableEq ε] [DecidableEq α] : DecidableEq (Except ε α) :=
  exceptDecEq

theorem exceptPairs_ok_of (kf : Record → Except Err (List Int)) (k : Record → List Int) :
    ∀ l : List Record, (∀ r ∈ l, kf r = Except.ok (k r)) →
      exceptPairs kf l = Except.ok (l.map (fun r => (k r, r))) := by
  intro l
  induction l with
  | nil => intro _; rfl
  | cons r t ih =>
    intro h
    have h1 : kf r = Except.ok (k r) := h r (by simp)
    have h2 : exceptPairs kf t = Except.ok (t.map (fun r => (k r, r))) :=
      ih (fun r hr => h r (by simp [hr]))
    rw [exceptPairs, h1, h2]
    rfl

theorem exceptPairs_ok_map_snd (kf : Record → Except Err (List Int)) :
    ∀ (l : List Record) (d : List (List Int × Record)),
      exceptPairs kf l = Except.ok d → d.map Prod.snd = l := by
  intro l
  induction l with
  | nil =>
    intro d h
    simp only [exceptPairs, Except.ok.injEq] at h
    rw [← h]
    rfl
  | cons r t ih =>
    intro d h
    rw [exceptPairs] at h
    cases h1 : kf r with
    | error e => rw [h1] at h; simp at h
    | ok v =>
      rw [h1] at h
      cases h2 : exceptPairs kf t with
      | error e => rw [h2] at h; simp at h
      | ok rest =>
        rw [h2] at h
        simp only [except_bind_ok, Except.ok.injEq] at h
        rw [← h]
        simp [ih rest h2]

theorem applyAnnExc_of_isSome (a : AnnSpec) (r : Record)
    (h : (applyAnnO a r).isSome) :
    applyAnnExc a r = Except.ok ((applyAnnO a r).getD 0) := by
  cases a with
  | call f => rfl
  | attr s =>
    cases h2 : dlookup s r.attrs with
    | some v => simp [applyAnnExc, applyAnnO, h2]
    | none => simp [applyAnnO, h2] at h

theorem annPairs_ok_of (a : AnnSpec) :
    ∀ l : List Record, (∀ r ∈ l, (applyAnnO a r).isSome) →
      annPairs a l = Except.ok (l.map (fun r => (r.pk, (applyAnnO a r).getD 0))) := by
  intro l
  induction l with
  | nil => intro _; rfl
  | cons r t ih =>
    intro h
    have h1 := applyAnnExc_of_isSome a r (h r (by simp))
    have h2 := ih (fun r hr => h r (by simp [hr]))
    rw [annPairs, h1, h2]
    rfl

theorem annPairs_ok_map_fst (a : AnnSpec) :
    ∀ (l : List Record) (ps : List (Nat × Int)),
      annPairs a l = Except.ok ps → ps.map Prod.fst = l.map Record.pk := by
  intro l
  induction l with
  | nil =>
    intro ps h
    simp only [annPairs, Except.ok.injEq] at h
    rw [← h]
    rfl
  | cons r t ih =>
    intro ps h
    rw [annPairs] at h
    cases h1 : applyAnnExc a r with
    | error e => rw [h1] at h; simp at h
    | ok v =>
      rw [h1] at h
      cases h2 : annPairs a t with
      | error e => rw [h2] at h; simp at h
      | ok rest =>
        rw [h2] at h
        simp only [except_bind_ok, Except.ok.injEq] at h
        rw [← h]
        simp [ih rest h2]

/-! ### Facts about the synthesized branch list -/

theorem branchesFrom_map_fst (i : Int) :
    ∀ l : List Record, (branchesFrom i l).map Prod.fst = l.map Record.pk := by
  intro l
  induction l generalizing i with
  | nil => rfl
  | cons r t ih => simp [branchesFrom, ih]

theorem dlookup_branchesFrom (l : List Record) (hnd : (l.map Record.pk).Nodup) :
    ∀ (i : Int) (j : Nat) (hj : j < l.length),
      dlookup (l.get ⟨j, hj⟩).pk (branchesFrom i l) = some (i + j) := by
  induction l with
  | nil => intro i j hj; cases hj
  | cons r t ih =>
    intro i j hj
    simp only [List.map_cons, List.nodup_cons] at hnd
    cases j with
    | zero => simp [branchesFrom, dlookup]
    | succ j' =>
      have hj' : j' < t.length := by simpa using hj
      have hmem : (t.get ⟨j', hj'⟩).pk ∈ t.map Record.pk :=
        List.mem_map.mpr ⟨t.get ⟨j', hj'⟩, List.get_mem t j' hj', rfl⟩
      have hne : r.pk ≠ (t.get ⟨j', hj'⟩).pk := fun he => hnd.1 (he ▸ hmem)
      have : (((r :: t).get ⟨j' + 1, hj⟩)) = t.get ⟨j', hj'⟩ := rfl
      rw [this]
      simp only [branchesFrom, dlookup, hne, if_false]
      rw [ih hnd.2 (i + 1) j' hj']
      congr 1
      push_cast
      ring

/-! ### The SQL round trip of the sort path -/

theorem pythonStableSort_perm (k : Record → List Int) (rev : Bool) (l : List Record) :
    (pythonStableSort k rev l).Perm l := by
  have h := (List.perm_insertionSort (pairLe rev) (l.map (fun r => (k r, r)))).map Prod.snd
  simpa [pythonStableSort, List.map_map, Function.comp_def] using h

theorem pythonStableSort_ne_nil (k : Record → List Int) (rev : Bool) (l : List Record)
    (h : l ≠ []) : pythonStableSort k rev l ≠ [] := by
  intro hc
  have hp := pythonStableSort_perm k rev l
  rw [hc] at hp
  exact h hp.nil_eq.symm

/-- Strict comparison of two rows by their CASE-assigned ranks. -/
def strictRank (br : List (Nat × Int)) (x y : Record) : Prop :=
  ∃ i j : Int, evalCase br x.pk = some i ∧ evalCase br y.pk = some j ∧ i < j

theorem eq_of_perm_of_strictRank (br : List (Nat × Int)) (l₁ l₂ : List Record)
    (hp : l₁.Perm l₂) (h₁ : l₁.Pairwise (strictRank br))
    (h₂ : l₂.Pairwise (strictRank br)) : l₁ = l₂ := by
  haveI : IsAntisymm Record (strictRank br) := ⟨by
    rintro a b ⟨i, j, ha, hb, hij⟩ ⟨i', j', hb', ha', hij'⟩
    rw [ha] at ha'
    rw [hb] at hb'
    injection ha' with e1
    injection hb' with e2
    omega⟩
  exact List.eq_of_perm_of_sorted hp h₁ h₂

theorem normalizeKey_ok (key : Key) (hk : key ≠ Key.attrs []) :
    normalizeKey key = Except.ok (keyExc key) := by
  cases key with
  | call f => rfl
  | attr s => rfl
  | attrs ss =>
    cases ss with
    | nil => exact absurd rfl hk
    | cons s t => rfl

/-- The queryset produced by a successful non-empty `sort`. -/
def sortResult (qs : QuerySet) (key : Key) (rev : Bool) : QuerySet :=
  { qs with
    extraSelect := dictInsert qs.extraSelect "sort_order"
      (dictOfList (branchesFrom 0 (pythonStableSort (keyD key) rev (materialize qs))))
    orderBy := some "sort_order" }

theorem sort_eq_sortResult (qs : QuerySet) (key : Key) (rev : Bool)
    (hne : materialize qs ≠ [])
    (hkey : key ≠ Key.attrs [])
    (hres : ∀ r ∈ materialize qs, keyExc key r = Except.ok (keyD key r)) :
    QuerySet.sort qs key rev = Except.ok (sortResult qs key rev) := by
  have hkf := normalizeKey_ok key hkey
  have hdec := exceptPairs_ok_of (keyExc key) (keyD key) (materialize qs) hres
  have hso : pythonStableSort (keyD key) rev (materialize qs) ≠ [] :=
    pythonStableSort_ne_nil _ _ _ hne
  unfold QuerySet.sort
  rw [hkf]
  simp only [except_bind_ok]
  rw [hdec]
  simp only [except_bind_ok]
  have hcond :
      ((List.insertionSort (pairLe rev)
        ((materialize qs).map (fun r => (keyD key r, r)))).map Prod.snd).isEmpty = false :=
    List.isEmpty_eq_false.mpr hso
  rw [hcond]
  rfl

theorem materialize_sortResult (qs : QuerySet) (key : Key) (rev : Bool)
    (hpk : (materialize qs).Pairwise (fun x y => x.pk ≠ y.pk)) :
    materialize (sortResult qs key rev) =
      pythonStableSort (keyD key) rev (materialize qs) := by
  have hsymm : ∀ {x y : Record}, x.pk ≠ y.pk → y.pk ≠ x.pk := fun h => Ne.symm h
  have hperm_so : (pythonStableSort (keyD key) rev (materialize qs)).Perm (materialize qs) :=
    pythonStableSort_perm _ _ _
  have hpk_so :
      (pythonStableSort (keyD key) rev (materialize qs)).Pairwise (fun x y => x.pk ≠ y.pk) :=
    (hperm_so.pairwise_iff hsymm).mpr hpk
  have hnod :
      ((pythonStableSort (keyD key) rev (materialize qs)).map Record.pk).Nodup :=
    List.pairwise_map.mpr hpk_so
  have hbr : dictOfList (branchesFrom 0 (pythonStableSort (keyD key) rev (materialize qs))) =
      branchesFrom 0 (pythonStableSort (keyD key) rev (materialize qs)) := by
    apply dictOfList_eq_self
    rw [branchesFrom_map_fst]
    exact hnod
  set so := pythonStableSort (keyD key) rev (materialize qs) with hso_def
  have hrank : ∀ (j : Nat) (hj : j < so.length),
      evalCase (branchesFrom 0 so) (so.get ⟨j, hj⟩).pk = some (j : Int) := by
    intro j hj
    have := dlookup_branchesFrom so hnod 0 j hj
    simpa [evalCase] using this
  -- the sorted-object list is strictly ranked
  have hstrict_so : so.Pairwise (strictRank (branchesFrom 0 so)) := by
    rw [List.pairwise_iff_get]
    intro i j hij
    exact ⟨(i : Nat), (j : Nat), hrank i.1 i.2, hrank j.1 j.2, by exact_mod_cast hij⟩
  -- unfold the materialization of the result
  have hlook : dlookup "sort_order" (sortResult qs key rev).extraSelect =
      some (branchesFrom 0 so) := by
    rw [show (sortResult qs key rev).extraSelect =
        dictInsert qs.extraSelect "sort_order" (dictOfList (branchesFrom 0 so)) from rfl, hbr]
    exact dlookup_dictInsert_self _ _ _
  have hmat : materialize (sortResult qs key rev) =
      List.insertionSort (rowLe (branchesFrom 0 so)) qs.records := by
    have hstep : materialize (sortResult qs key rev) =
        match dlookup "sort_order" (sortResult qs key rev).extraSelect with
        | none => (sortResult qs key rev).records
        | some br => List.insertionSort (rowLe br) (sortResult qs key rev).records := rfl
    rw [hstep, hlook]
    rfl
  rw [hmat]
  -- the left-hand side is a permutation of the sorted objects
  have hperm_L : (List.insertionSort (rowLe (branchesFrom 0 so)) qs.records).Perm so :=
    (List.perm_insertionSort _ _).trans ((materialize_perm qs).symm.trans hperm_so.symm)
  -- and it is also strictly ranked
  have hrow : (List.insertionSort (rowLe (branchesFrom 0 so)) qs.records).Pairwise
      (rowLe (branchesFrom 0 so)) := List.sorted_insertionSort _ _
  have hpk_L : (List.insertionSort (rowLe (branchesFrom 0 so)) qs.records).Pairwise
      (fun x y => x.pk ≠ y.pk) :=
    (hperm_L.pairwise_iff hsymm).mpr hpk_so
  have hstrict_L : (List.insertionSort (rowLe (branchesFrom 0 so)) qs.records).Pairwise
      (strictRank (branchesFrom 0 so)) := by
    refine (hrow.and hpk_L).imp_of_mem ?_
    intro x y hx hy hxy
    obtain ⟨nx, hnx⟩ := List.mem_iff_get.mp (hperm_L.subset hx)
    obtain ⟨ny, hny⟩ := List.mem_iff_get.mp (hperm_L.subset hy)
    have hex : evalCase (branchesFrom 0 so) x.pk = some (nx.1 : Int) := by
      rw [← hnx]
      exact hrank nx.1 nx.2
    have hey : evalCase (branchesFrom 0 so) y.pk = some (ny.1 : Int) := by
      rw [← hny]
      exact hrank ny.1 ny.2
    have hle : (nx.1 : Int) ≤ (ny.1 : Int) := by
      have h1 := hxy.1
      rw [rowLe, hex, hey] at h1
      simpa [nullsLastLeB] using h1
    have hne2 : (nx.1 : Int) ≠ (ny.1 : Int) := by
      intro he
      have : nx = ny := Fin.ext (by exact_mod_cast he)
      exact hxy.2 (by rw [← hnx, ← hny, this])
    exact ⟨nx.1, ny.1, hex, hey, lt_of_le_of_ne hle hne2⟩
  exact eq_of_perm_of_strictRank (branchesFrom 0 so) _ so hperm_L hstrict_L hstrict_so

/-! ### Claims C1, C2, C8 -/

/-- C1 (confirmed): for every non-empty collection with distinct pks, every
key (callable, attribute string, or non-empty attribute tuple) that resolves
on all records, and both reverse flags, `sort` succeeds and the materialized
iteration order of its result equals the in-memory stable sort of the
collection by the normalized key, honoring the reverse flag. -/
theorem sort_materializes_stable_order (qs : QuerySet) (key : Key) (rev : Bool)
    (hpk : (materialize qs).Pairwise (fun x y => x.pk ≠ y.pk))
    (hne : materialize qs ≠ [])
    (hkey : key ≠ Key.attrs [])
    (hres : ∀ r ∈ materialize qs, keyExc key r = Except.ok (keyD key r)) :
    ∃ qs', QuerySet.sort qs key rev = Except.ok qs' ∧
      materialize qs' = pythonStableSort (keyD key) rev (materialize qs) :=
  ⟨sortResult qs key rev, sort_eq_sortResult qs key rev hne hkey hres,
   materialize_sortResult qs key rev hpk⟩

theorem sort_materializes_stable_order_witness :
    ((materialize qsAB).Pairwise (fun x y => x.pk ≠ y.pk) ∧ materialize qsAB ≠ [] ∧
      (∀ r ∈ materialize qsAB, keyExc (Key.attr "name") r =
        Except.ok (keyD (Key.attr "name") r))) ∧
    (∃ qs', QuerySet.sort qsAB (Key.attr "name") false = Except.ok qs' ∧
      materialize qs' = pythonStableSort (keyD (Key.attr "name")) false (materialize qsAB)) ∧
    (∃ qs', QuerySet.sort qsAB (Key.attr "name") true = Except.ok qs' ∧
      materialize qs' = pythonStableSort (keyD (Key.attr "name")) true (materialize qsAB)) :=
  ⟨⟨by decide, by decide, by decide⟩,
   sort_materializes_stable_order qsAB (Key.attr "name") false (by decide) (by decide)
     (fun hc => Key.noConfusion hc) (by decide),
   sort_materializes_stable_order qsAB (Key.attr "name") true (by decide) (by decide)
     (fun hc => Key.noConfusion hc) (by decide)⟩

/-- Shared helper: the queryset returned by a successful annotation with an
explicit output name. -/
theorem annotate_some_eq (qs : QuerySet) (a : AnnSpec) (n : String)
    (hres : ∀ r ∈ materialize qs, (applyAnnO a r).isSome) :
    QuerySet.annotate_property qs a (some n) = Except.ok
      { qs with extraSelect := (dictInsert qs.extraSelect n
          (dictOfList ((materialize qs).map (fun r => (r.pk, (applyAnnO a r).getD 0))))) } := by
  have hp := annPairs_ok_of a (materialize qs) hres
  have hshow : QuerySet.annotate_property qs a (some n) =
      (annPairs a (materialize qs) >>= fun pairs =>
        pure { qs with extraSelect := (dictInsert qs.extraSelect n (dictOfList pairs)) }) := rfl
  rw [hshow, hp]
  rfl

/-- Shared helper: reading the freshly installed column evaluates its CASE
branch list at the row's pk. -/
theorem readField_dictInsert (qs : QuerySet) (name : String) (br : List (Nat × Int))
    (r : Record) :
    readField { qs with extraSelect := (dictInsert qs.extraSelect name br) } name r =
      evalCase br r.pk := by
  show (dlookup name (dictInsert qs.extraSelect name br)).bind (fun b => evalCase b r.pk) =
    evalCase br r.pk
  rw [dlookup_dictInsert_self]
  rfl

/-- C2 (confirmed): when the collection's pks are distinct and the
annotation resolves on every record, `annotate_property(C, k, name)` yields
a collection in which reading the computed field `name` on any record of C
gives back exactly `k(r)` (value computed in memory, embedded as a CASE
branch literal keyed by pk, read back by evaluating the CASE at that pk). -/
theorem annotate_property_roundtrip (qs : QuerySet) (a : AnnSpec) (name : String)
    (hpk : (materialize qs).Pairwise (fun x y => x.pk ≠ y.pk))
    (hres : ∀ r ∈ materialize qs, (applyAnnO a r).isSome) :
    ∃ qs', QuerySet.annotate_property qs a (some name) = Except.ok qs' ∧
      ∀ r ∈ qs.records, readField qs' name r = applyAnnO a r := by
  refine ⟨_, annotate_some_eq qs a name hres, ?_⟩
  intro r hr
  have hrm : r ∈ materialize qs := (materialize_perm qs).mem_iff.mpr hr
  have hkeys : ((materialize qs).map (fun r => (r.pk, (applyAnnO a r).getD 0))).map Prod.fst =
      (materialize qs).map Record.pk := by
    simp [List.map_map, Function.comp_def]
  have hnod : (((materialize qs).map (fun r => (r.pk, (applyAnnO a r).getD 0))).map
      Prod.fst).Nodup := by
    rw [hkeys]
    exact List.pairwise_map.mpr hpk
  have hdict := dictOfList_eq_self _ hnod
  have hmem : (r.pk, (applyAnnO a r).getD 0) ∈
      (materialize qs).map (fun r => (r.pk, (applyAnnO a r).getD 0)) :=
    List.mem_map.mpr ⟨r, hrm, rfl⟩
  have hlook := dlookup_of_mem_of_nodup _ _ _ hnod hmem
  rw [readField_dictInsert, hdict, evalCase, hlook]
  cases hv : applyAnnO a r with
  | some v => simp [hv]
  | none =>
    have hs := hres r hrm
    rw [hv] at hs
    simp at hs

theorem annotate_property_roundtrip_witness :
    ((materialize qsAB).Pairwise (fun x y => x.pk ≠ y.pk) ∧
      (∀ r ∈ materialize qsAB, (applyAnnO (AnnSpec.attr "name") r).isSome)) ∧
    (∃ qs', QuerySet.annotate_property qsAB (AnnSpec.attr "name") (some "product_name") =
        Except.ok qs' ∧
      ∀ r ∈ qsAB.records, readField qs' "product_name" r =
        applyAnnO (AnnSpec.attr "name") r) :=
  ⟨⟨by decide, by decide⟩,
   annotate_property_roundtrip qsAB (AnnSpec.attr "name") "product_name"
     (by decide) (by decide)⟩

/-- Shared helper: adding an extra-select column whose name is not the
current ordering field does not change the materialized order. -/
theorem materialize_congr_extra (qs : QuerySet) (name : String) (br : List (Nat × Int))
    (hord : qs.orderBy ≠ some name) :
    materialize { qs with extraSelect := (dictInsert qs.extraSelect name br) } =
      materialize qs := by
  have hQ : ∀ q : QuerySet, materialize q =
      match q.orderBy with
      | none => q.records
      | some f =>
        match dlookup f q.extraSelect with
        | none => q.records
        | some b => List.insertionSort (rowLe b) q.records := fun _ => rfl
  rw [hQ { qs with extraSelect := (dictInsert qs.extraSelect name br) }, hQ qs]
  cases ho : qs.orderBy with
  | none => simp [ho]
  | some f =>
    have hf : f ≠ name := fun he => hord (by rw [ho, he])
    simp only [ho]
    rw [dlookup_dictInsert_ne qs.extraSelect name f br hf]

/-- C8 (confirmed): a successful `annotate_property` adds the new computed
field to a new queryset without altering the ordering: the result keeps the
base rows, the ordering field and the materialized iteration order of the
input (provided the output name does not shadow the field currently ordered
by), and the original queryset value is untouched (the operation is pure,
returning a new object). -/
theorem annotate_property_frame (qs : QuerySet) (a : AnnSpec) (name : String)
    (qs' : QuerySet)
    (h : QuerySet.annotate_property qs a (some name) = Except.ok qs')
    (hord : qs.orderBy ≠ some name) :
    qs'.records = qs.records ∧ qs'.orderBy = qs.orderBy ∧
    materialize qs' = materialize qs ∧
    ∃ br, dlookup name qs'.extraSelect = some br := by
  have hshow : QuerySet.annotate_property qs a (some name) =
      (annPairs a (materialize qs) >>= fun pairs =>
        pure { qs with extraSelect := (dictInsert qs.extraSelect name (dictOfList pairs)) }) :=
    rfl
  rw [hshow] at h
  cases hp : annPairs a (materialize qs) with
  | error e => rw [hp] at h; simp at h
  | ok pairs =>
    rw [hp] at h
    simp only [except_bind_ok, except_pure_eq_ok, Except.ok.injEq] at h
    subst h
    exact ⟨rfl, rfl, materialize_congr_extra qs name (dictOfList pairs) hord,
      dictOfList pairs, dlookup_dictInsert_self _ _ _⟩

def qsABann : QuerySet := ⟨[recA, recB], [("nm", [(1, 2), (2, 1)])], none⟩

theorem annotate_property_frame_witness :
    (QuerySet.annotate_property qsAB (AnnSpec.attr "name") (some "nm") =
      Except.ok qsABann ∧ qsAB.orderBy ≠ some "nm") ∧
    (qsABann.records = qsAB.records ∧ qsABann.orderBy = qsAB.orderBy ∧
      materialize qsABann = materialize qsAB ∧
      ∃ br, dlookup "nm" qsABann.extraSelect = some br) :=
  ⟨⟨by decide, by decide⟩,
   annotate_property_frame qsAB (AnnSpec.attr "name") "nm" qsABann
     (by decide) (by decide)⟩

/-! ### Claim C7 -/

/-- Shared helper: inversion of a successful non-empty `sort`. -/
theorem sort_ok_inversion (qs : QuerySet) (key : Key) (rev : Bool) (qs' : QuerySet)
    (h : QuerySet.sort qs key rev = Except.ok qs')
    (hne : materialize qs ≠ []) :
    ∃ so : List Record, so.Perm (materialize qs) ∧
      qs'.extraSelect =
        dictInsert qs.extraSelect "sort_order" (dictOfList (branchesFrom 0 so)) ∧
      qs'.records = qs.records ∧ qs'.orderBy = some "sort_order" := by
  rw [QuerySet.sort] at h
  cases hk : normalizeKey key with
  | error e => rw [hk] at h; simp at h
  | ok kf =>
    rw [hk] at h
    simp only [except_bind_ok] at h
    cases hd : exceptPairs kf (materialize qs) with
    | error e => rw [hd] at h; simp at h
    | ok d =>
      rw [hd] at h
      simp only [except_bind_ok] at h
      have hsnd : d.map Prod.snd = materialize qs := exceptPairs_ok_map_snd kf _ d hd
      have hperm : ((List.insertionSort (pairLe rev) d).map Prod.snd).Perm (materialize qs) := by
        have hp := (List.perm_insertionSort (pairLe rev) d).map Prod.snd
        rw [hsnd] at hp
        exact hp
      have hnonempty : ((List.insertionSort (pairLe rev) d).map Prod.snd).isEmpty = false := by
        rw [List.isEmpty_eq_false]
        intro hc
        rw [hc] at hperm
        exact hne hperm.nil_eq.symm
      rw [hnonempty] at h
      simp only [Bool.false_eq_true, if_false, except_pure_eq_ok, Except.ok.injEq] at h
      subst h
      exact ⟨(List.insertionSort (pairLe rev) d).map Prod.snd, hperm, rfl, rfl, rfl⟩

/-- Shared helper: inversion of a successful annotation with an explicit
output name. -/
theorem annotate_ok_inversion (qs : QuerySet) (a : AnnSpec) (n : String) (qs' : QuerySet)
    (h : QuerySet.annotate_property qs a (some n) = Except.ok qs') :
    ∃ ps, annPairs a (materialize qs) = Except.ok ps ∧
      qs'.extraSelect = dictInsert qs.extraSelect n (dictOfList ps) ∧
      qs'.records = qs.records ∧ qs'.orderBy = qs.orderBy := by
  have hshow : QuerySet.annotate_property qs a (some n) =
      (annPairs a (materialize qs) >>= fun pairs =>
        pure { qs with extraSelect := (dictInsert qs.extraSelect n (dictOfList pairs)) }) :=
    rfl
  rw [hshow] at h
  cases hp : annPairs a (materialize qs) with
  | error e => rw [hp] at h; simp at h
  | ok ps =>
    rw [hp] at h
    simp only [except_bind_ok, except_pure_eq_ok, Except.ok.injEq] at h
    subst h
    exact ⟨ps, rfl, rfl, rfl, rfl⟩

/-- C7 (confirmed): for both operations, every record identifier of the
collection appears exactly once among the branch keys of the synthesized
conditional expression (the Python dict keyed by pk guarantees uniqueness,
and distinct-pk collections contribute each pk once); and the fragment is a
pure function of the materialized records and the key/annotation — two
querysets with the same materialization get the same fragment, recomputed
on each call with no caching. -/
theorem synthesized_fragment_invariant :
    (∀ (qs : QuerySet) (key : Key) (rev : Bool) (qs' : QuerySet),
      QuerySet.sort qs key rev = Except.ok qs' →
      materialize qs ≠ [] →
      (materialize qs).Pairwise (fun x y => x.pk ≠ y.pk) →
      ∃ br, dlookup "sort_order" qs'.extraSelect = some br ∧
        ∀ r ∈ materialize qs, (br.map Prod.fst).count r.pk = 1) ∧
    (∀ (qs : QuerySet) (a : AnnSpec) (n : String) (qs' : QuerySet),
      QuerySet.annotate_property qs a (some n) = Except.ok qs' →
      (materialize qs).Pairwise (fun x y => x.pk ≠ y.pk) →
      ∃ br, dlookup n qs'.extraSelect = some br ∧
        ∀ r ∈ materialize qs, (br.map Prod.fst).count r.pk = 1) ∧
    (∀ (qs₁ qs₂ : QuerySet) (key : Key) (rev : Bool) (qs₁' qs₂' : QuerySet),
      materialize qs₁ = materialize qs₂ → materialize qs₁ ≠ [] →
      QuerySet.sort qs₁ key rev = Except.ok qs₁' →
      QuerySet.sort qs₂ key rev = Except.ok qs₂' →
      dlookup "sort_order" qs₁'.extraSelect = dlookup "sort_order" qs₂'.extraSelect) ∧
    (∀ (qs₁ qs₂ : QuerySet) (a : AnnSpec) (n : String) (qs₁' qs₂' : QuerySet),
      materialize qs₁ = materialize qs₂ →
      QuerySet.annotate_property qs₁ a (some n) = Except.ok qs₁' →
      QuerySet.annotate_property qs₂ a (some n) = Except.ok qs₂' →
      dlookup n qs₁'.extraSelect = dlookup n qs₂'.extraSelect) := by
  refine ⟨?_, ?_, ?_, ?_⟩
  · -- exactly-once, sort path
    intro qs key rev qs' h hne hpk
    obtain ⟨so, hperm, hes, _, _⟩ := sort_ok_inversion qs key rev qs' h hne
    have hpk_so : so.Pairwise (fun x y => x.pk ≠ y.pk) :=
      ((hperm.pairwise_iff (fun h => Ne.symm h)).mpr hpk)
    have hnod : (so.map Record.pk).Nodup := List.pairwise_map.mpr hpk_so
    have hbr : dictOfList (branchesFrom 0 so) = branchesFrom 0 so := by
      apply dictOfList_eq_self
      rw [branchesFrom_map_fst]
      exact hnod
    refine ⟨dictOfList (branchesFrom 0 so), by rw [hes]; exact dlookup_dictInsert_self _ _ _,
      ?_⟩
    intro r hr
    rw [hbr, branchesFrom_map_fst]
    exact List.count_eq_one_of_mem hnod
      (List.mem_map.mpr ⟨r, hperm.mem_iff.mpr hr, rfl⟩)
  · -- exactly-once, annotate path
    intro qs a n qs' h hpk
    obtain ⟨ps, hps, hes, _, _⟩ := annotate_ok_inversion qs a n qs' h
    have hkeys : ps.map Prod.fst = (materialize qs).map Record.pk :=
      annPairs_ok_map_fst a (materialize qs) ps hps
    have hnod : (ps.map Prod.fst).Nodup := by
      rw [hkeys]
      exact List.pairwise_map.mpr hpk
    have hbr : dictOfList ps = ps := dictOfList_eq_self ps hnod
    refine ⟨dictOfList ps, by rw [hes]; exact dlookup_dictInsert_self _ _ _, ?_⟩
    intro r hr
    rw [hbr, hkeys]
    exact List.count_eq_one_of_mem (hkeys ▸ hnod) (List.mem_map.mpr ⟨r, hr, rfl⟩)
  · -- purity, sort path
    intro qs₁ qs₂ key rev qs₁' qs₂' hm hne h₁ h₂
    rw [QuerySet.sort] at h₁ h₂
    cases hk : normalizeKey key with
    | error e => rw [hk] at h₁; simp at h₁
    | ok kf =>
      rw [hk] at h₁ h₂
      simp only [except_bind_ok] at h₁ h₂
      cases hd : exceptPairs kf (materialize qs₁) with
      | error e => rw [hd] at h₁; simp at h₁
      | ok d =>
        rw [hd] at h₁
        rw [hm] at hd
        rw [hd] at h₂
        simp only [except_bind_ok] at h₁ h₂
        have hsnd : d.map Prod.snd = materialize qs₂ := exceptPairs_ok_map_snd kf _ d hd
        have hnonempty : ((List.insertionSort (pairLe rev) d).map Prod.snd).isEmpty = false := by
          rw [List.isEmpty_eq_false]
          intro hc
          have hp := (List.perm_insertionSort (pairLe rev) d).map Prod.snd
          rw [hsnd, hc] at hp
          exact hne (hm ▸ hp.nil_eq.symm)
        rw [hnonempty] at h₁ h₂
        simp only [Bool.false_eq_true, if_false, except_pure_eq_ok, Except.ok.injEq] at h₁ h₂
        subst h₁
        subst h₂
        rw [dlookup_dictInsert_self, dlookup_dictInsert_self]
  · -- purity, annotate path
    intro qs₁ qs₂ a n qs₁' qs₂' hm h₁ h₂
    obtain ⟨ps₁, hps₁, hes₁, _, _⟩ := annotate_ok_inversion qs₁ a n qs₁' h₁
    obtain ⟨ps₂, hps₂, hes₂, _, _⟩ := annotate_ok_inversion qs₂ a n qs₂' h₂
    rw [hm, hps₂] at hps₁
    injection hps₁ with he
    rw [hes₁, hes₂, he]
    rw [dlookup_dictInsert_self, dlookup_dictInsert_self]

def qsABsorted : QuerySet :=
  ⟨[recA, recB], [("sort_order", [(2, 0), (1, 1)])], some "sort_order"⟩

theorem synthesized_fragment_invariant_witness :
    ((∃ br, dlookup "sort_order" qsABsorted.extraSelect = some br ∧
      ∀ r ∈ materialize qsAB, (br.map Prod.fst).count r.pk = 1) ∧
    (∃ br, dlookup "nm" qsABann.extraSelect = some br ∧
      ∀ r ∈ materialize qsAB, (br.map Prod.fst).count r.pk = 1)) ∧
    (dlookup "sort_order" qsABsorted.extraSelect =
      dlookup "sort_order" qsABsorted.extraSelect ∧
    dlookup "nm" qsABann.extraSelect = dlookup "nm" qsABann.extraSelect) :=
  ⟨⟨synthesized_fragment_invariant.1 qsAB (Key.attr "name") false qsABsorted
      (by decide) (by decide) (by decide),
    synthesized_fragment_invariant.2.1 qsAB (AnnSpec.attr "name") "nm" qsABann
      (by decide) (by decide)⟩,
   ⟨synthesized_fragment_invariant.2.2.1 qsAB qsAB (Key.attr "name") false
      qsABsorted qsABsorted rfl (by decide) (by decide) (by decide),
    synthesized_fragment_invariant.2.2.2 qsAB qsAB (AnnSpec.attr "name") "nm"
      qsABann qsABann rfl (by decide) (by decide)⟩⟩

/-! ### Stability machinery for tuple keys (C5) -/

/-- A record's single attribute value (with a default), as used after the
tuple key has been normalized. -/
def attrD (nm : String) (r : Record) : Int :=
  (dlookup nm r.attrs).getD 0

/-- Ordering records by one attribute, ascending: a single-attribute stable
sort pass. -/
def attrLe (nm : String) (x y : Record) : Prop :=
  attrD nm x ≤ attrD nm y

instance (nm : String) : DecidableRel (attrLe nm) :=
  fun x y => inferInstanceAs (Decidable (attrD nm x ≤ attrD nm y))

instance (nm : String) : IsTotal Record (attrLe nm) :=
  ⟨fun x y => le_total (attrD nm x) (attrD nm y)⟩

instance (nm : String) : IsTrans Record (attrLe nm) :=
  ⟨fun _ _ _ h1 h2 => le_trans h1 h2⟩

theorem pythonStableSort_false_eq (k : Record → List Int) (l : List Record) :
    pythonStableSort k false l = List.insertionSort (keyLe k) l := by
  have h := List.map_insertionSort (keyLe k) (pairLe false) (fun r => (k r, r)) l
    (fun a _ b _ => Iff.rfl)
  rw [pythonStableSort, ← h, List.map_map]
  simp [Function.comp_def]

theorem orderedInsert_filter_pos {α : Type} (r : α → α → Prop) [DecidableRel r] (p : α → Bool)
    (a : α) (ha : p a = true) (hcls : ∀ y, p y = true → r a y) :
    ∀ l : List α, (List.orderedInsert r a l).filter p = a :: l.filter p := by
  intro l
  induction l with
  | nil => simp [List.orderedInsert, List.filter_cons, ha]
  | cons b t ih =>
    by_cases hr : r a b
    · rw [List.orderedInsert_of_le r t hr]
      simp [List.filter_cons, ha]
    · have hb : p b = false := by
        cases hpb : p b
        · rfl
        · exact absurd (hcls b hpb) hr
      rw [show List.orderedInsert r a (b :: t) = b :: List.orderedInsert r a t from by
        simp [List.orderedInsert, hr]]
      simp [List.filter_cons, hb, ih]

theorem orderedInsert_filter_neg {α : Type} (r : α → α → Prop) [DecidableRel r] (p : α → Bool)
    (a : α) (ha : p a = false) :
    ∀ l : List α, (List.orderedInsert r a l).filter p = l.filter p := by
  intro l
  induction l with
  | nil => simp [List.orderedInsert, List.filter_cons, ha]
  | cons b t ih =>
    by_cases hr : r a b
    · rw [List.orderedInsert_of_le r t hr]
      simp [List.filter_cons, ha]
    · rw [show List.orderedInsert r a (b :: t) = b :: List.orderedInsert r a t from by
        simp [List.orderedInsert, hr]]
      simp [List.filter_cons, ih]

/-- Stability of the in-memory sort, filter form: the subsequence of any
comparator-tie class is untouched by the sort. -/
theorem insertionSort_filter {α : Type} (r : α → α → Prop) [DecidableRel r] (p : α → Bool)
    (hcls : ∀ x y, p x = true → p y = true → r x y) :
    ∀ l : List α, (List.insertionSort r l).filter p = l.filter p := by
  intro l
  induction l with
  | nil => rfl
  | cons x t ih =>
    rw [List.insertionSort]
    by_cases hx : p x = true
    · rw [orderedInsert_filter_pos r p x hx (fun y hy => hcls x y hx hy), ih,
        List.filter_cons, hx]
      simp
    · have hx' : p x = false := by
        cases hpx : p x
        · rfl
        · exact absurd hpx hx
      rw [orderedInsert_filter_neg r p x hx', ih, List.filter_cons, hx']
      simp

/-- Uniqueness of a stable sort: two lists sorted by the same (total) key
comparison whose tie classes are equal as subsequences are equal. -/
theorem eq_of_sorted_of_filter_eq (k : Record → List Int) :
    ∀ l₁ l₂ : List Record,
      l₁.Pairwise (keyLe k) → l₂.Pairwise (keyLe k) →
      (∀ v : List Int, l₁.filter (fun x => decide (k x = v)) =
        l₂.filter (fun x => decide (k x = v))) →
      l₁ = l₂ := by
  intro l₁
  induction l₁ with
  | nil =>
    intro l₂ _ _ hf
    cases l₂ with
    | nil => rfl
    | cons y t₂ =>
      exfalso
      have h := hf (k y)
      simp [List.filter_cons] at h
  | cons x t₁ ih =>
    intro l₂ h₁ h₂ hf
    cases l₂ with
    | nil =>
      exfalso
      have h := hf (k x)
      simp [List.filter_cons] at h
    | cons y t₂ =>
      have hky : keyLe k y x := by
        have hmem : x ∈ (y :: t₂).filter (fun z => decide (k z = k x)) := by
          rw [← hf (k x)]
          exact List.mem_filter.mpr ⟨List.mem_cons_self x t₁, by simp⟩
        rcases List.mem_cons.mp (List.mem_filter.mp hmem).1 with he | ht
        · show lexLeB (k y) (k x) = true
          rw [he]
          exact lexLeB_refl (k y)
        · exact List.rel_of_pairwise_cons h₂ ht
      have hkx : keyLe k x y := by
        have hmem : y ∈ (x :: t₁).filter (fun z => decide (k z = k y)) := by
          rw [hf (k y)]
          exact List.mem_filter.mpr ⟨List.mem_cons_self y t₂, by simp⟩
        rcases List.mem_cons.mp (List.mem_filter.mp hmem).1 with he | ht
        · show lexLeB (k x) (k y) = true
          rw [he]
          exact lexLeB_refl (k x)
        · exact List.rel_of_pairwise_cons h₁ ht
      have hk : k x = k y := lexLeB_antisymm _ _ hkx hky
      have hfx := hf (k x)
      rw [List.filter_cons, List.filter_cons] at hfx
      simp only [decide_eq_true_eq] at hfx
      rw [if_pos trivial, if_pos hk.symm] at hfx
      injection hfx with hxy htail
      subst hxy
      congr 1
      apply ih t₂ (List.Pairwise.of_cons h₁) (List.Pairwise.of_cons h₂)
      intro v
      by_cases hv : v = k x
      · subst hv
        exact htail
      · have h := hf v
        rw [List.filter_cons, List.filter_cons] at h
        simp only [decide_eq_true_eq] at h
        rw [if_neg (fun he => hv he.symm), if_neg (fun he => hv (hk ▸ he.symm))] at h
        exact h

/-- Two stable single-attribute passes produce a list sorted by the
lexicographic two-attribute key. -/
theorem pairwise_lex_of_two (a b : String) :
    ∀ l : List Record,
      l.Pairwise (attrLe a) →
      (∀ v : Int, (l.filter (fun x => decide (attrD a x = v))).Pairwise (attrLe b)) →
      l.Pairwise (keyLe (fun r => [attrD a r, attrD b r])) := by
  intro l
  induction l with
  | nil => intro _ _; exact List.Pairwise.nil
  | cons x t ih =>
    intro ha hb
    rw [List.pairwise_cons] at ha ⊢
    constructor
    · intro y hy
      have hay : attrD a x ≤ attrD a y := ha.1 y hy
      show lexLeB [attrD a x, attrD b x] [attrD a y, attrD b y] = true
      rw [lexLeB_cons_iff]
      by_cases he : attrD a x < attrD a y
      · exact Or.inl he
      · have heq : attrD a x = attrD a y := by omega
        refine Or.inr ⟨heq, ?_⟩
        rw [lexLeB_cons_iff]
        have hfb := hb (attrD a x)
        rw [List.filter_cons] at hfb
        simp only [decide_eq_true_eq] at hfb
        rw [if_pos trivial] at hfb
        have hyf : y ∈ t.filter (fun z => decide (attrD a z = attrD a x)) :=
          List.mem_filter.mpr ⟨hy, by simp [heq.symm]⟩
        have hble : attrLe b x y := List.rel_of_pairwise_cons hfb hyf
        by_cases hlt : attrD b x < attrD b y
        · exact Or.inl hlt
        · have hbe : attrD b x = attrD b y := by
            have : attrD b x ≤ attrD b y := hble
            omega
          exact Or.inr ⟨hbe, rfl⟩
    · apply ih ha.2
      intro v
      have hfb := hb v
      rw [List.filter_cons] at hfb
      simp only [decide_eq_true_eq] at hfb
      by_cases hc : attrD a x = v
      · rw [if_pos hc] at hfb
        exact List.Pairwise.of_cons hfb
      · rw [if_neg hc] at hfb
        exact hfb

/-- C5 (confirmed): sorting by the tuple key `(a, b)` yields the same order
as a stable sort by attribute a with ties broken by attribute b (realized as
the stable two-pass sort: first by b, then by a), i.e. lexicographic
comparison on the extracted attribute tuple — standard multi-key sort
semantics. -/
theorem sort_tuple_key_multikey (qs : QuerySet) (a b : String)
    (hpk : (materialize qs).Pairwise (fun x y => x.pk ≠ y.pk))
    (hne : materialize qs ≠ [])
    (hres : ∀ r ∈ materialize qs, keyExc (Key.attrs [a, b]) r =
      Except.ok (keyD (Key.attrs [a, b]) r)) :
    ∃ qs', QuerySet.sort qs (Key.attrs [a, b]) false = Except.ok qs' ∧
      materialize qs' =
        List.insertionSort (attrLe a)
          (List.insertionSort (attrLe b) (materialize qs)) := by
  have hok := sort_eq_sortResult qs (Key.attrs [a, b]) false hne (by simp) hres
  have hmat := materialize_sortResult qs (Key.attrs [a, b]) false hpk
  refine ⟨sortResult qs (Key.attrs [a, b]) false, hok, ?_⟩
  rw [hmat]
  have hkfun : keyD (Key.attrs [a, b]) = (fun r => [attrD a r, attrD b r]) := rfl
  rw [pythonStableSort_false_eq, hkfun]
  have hsorted_lhs :
      (List.insertionSort (keyLe (fun r => [attrD a r, attrD b r])) (materialize qs)).Pairwise
        (keyLe (fun r => [attrD a r, attrD b r])) :=
    List.sorted_insertionSort _ _
  have hfilter_a : ∀ v : Int,
      (List.insertionSort (attrLe a)
          (List.insertionSort (attrLe b) (materialize qs))).filter
        (fun x => decide (attrD a x = v)) =
      (List.insertionSort (attrLe b) (materialize qs)).filter
        (fun x => decide (attrD a x = v)) := by
    intro v
    apply insertionSort_filter
    intro x y hx hy
    simp only [decide_eq_true_eq] at hx hy
    show attrD a x ≤ attrD a y
    rw [hx, hy]
  have hsorted_rhs :
      (List.insertionSort (attrLe a)
          (List.insertionSort (attrLe b) (materialize qs))).Pairwise
        (keyLe (fun r => [attrD a r, attrD b r])) := by
    apply pairwise_lex_of_two
    · exact List.sorted_insertionSort _ _
    · intro v
      rw [hfilter_a v]
      exact List.Pairwise.filter _ (List.sorted_insertionSort _ _)
  have hfil : ∀ v : List Int,
      (List.insertionSort (keyLe (fun r => [attrD a r, attrD b r])) (materialize qs)).filter
        (fun x => decide ([attrD a x, attrD b x] = v)) =
      (List.insertionSort (attrLe a)
          (List.insertionSort (attrLe b) (materialize qs))).filter
        (fun x => decide ([attrD a x, attrD b x] = v)) := by
    intro v
    have h1 : (List.insertionSort (keyLe (fun r => [attrD a r, attrD b r]))
          (materialize qs)).filter (fun x => decide ([attrD a x, attrD b x] = v)) =
        (materialize qs).filter (fun x => decide ([attrD a x, attrD b x] = v)) := by
      apply insertionSort_filter
      intro x y hx hy
      simp only [decide_eq_true_eq] at hx hy
      show lexLeB [attrD a x, attrD b x] [attrD a y, attrD b y] = true
      rw [hx, hy]
      exact lexLeB_refl v
    have h2 : (List.insertionSort (attrLe a)
          (List.insertionSort (attrLe b) (materialize qs))).filter
        (fun x => decide ([attrD a x, attrD b x] = v)) =
        (List.insertionSort (attrLe b) (materialize qs)).filter
          (fun x => decide ([attrD a x, attrD b x] = v)) := by
      apply insertionSort_filter
      intro x y hx hy
      simp only [decide_eq_true_eq] at hx hy
      have hk2 := hx.trans hy.symm
      injection hk2 with e1 _
      exact le_of_eq e1
    have h3 : (List.insertionSort (attrLe b) (materialize qs)).filter
        (fun x => decide ([attrD a x, attrD b x] = v)) =
        (materialize qs).filter (fun x => decide ([attrD a x, attrD b x] = v)) := by
      apply insertionSort_filter
      intro x y hx hy
      simp only [decide_eq_true_eq] at hx hy
      have hk2 := hx.trans hy.symm
      injection hk2 with _ e2
      injection e2 with e3 _
      exact le_of_eq e3
    rw [h1, h2, h3]
  exact eq_of_sorted_of_filter_eq (fun r => [attrD a r, attrD b r]) _ _
    hsorted_lhs hsorted_rhs hfil

theorem sort_tuple_key_multikey_witness :
    ((materialize qsAB).Pairwise (fun x y => x.pk ≠ y.pk) ∧ materialize qsAB ≠ [] ∧
      (∀ r ∈ materialize qsAB, keyExc (Key.attrs ["name", "cost"]) r =
        Except.ok (keyD (Key.attrs ["name", "cost"]) r))) ∧
    (∃ qs', QuerySet.sort qsAB (Key.attrs ["name", "cost"]) false = Except.ok qs' ∧
      materialize qs' =
        List.insertionSort (attrLe "name")
          (List.insertionSort (attrLe "cost") (materialize qsAB))) :=
  ⟨⟨by decide, by decide, by decide⟩,
   sort_tuple_key_multikey qsAB "name" "cost" (by decide) (by decide) (by decide)⟩
